import Mathlib

/-!
Verification of the torch-pme / meshlode core against its design specification.

The Python sources are shallowly embedded in Lean:
* `src/src/torchpme/lib/mesh_interpolator.py` (`MeshInterpolator`):
  interpolation weight tables, index wrapping, scatter/gather, validation;
* `src/src/torchpme/lib/kvectors.py` (`_generate_kvectors`):
  reciprocal-lattice vector generation;
* `src/src/meshlode/calculators/ewaldpotential.py` (`_EwaldPotentialImpl`):
  parameter resolution, the reciprocal-space (long-range) Ewald sum and the
  constructor validation.

Real-valued tensor arithmetic is embedded over `ℝ`; Python integers over `ℤ`
(Python's `%` with a positive modulus agrees with `Int.emod`); float
comparisons used only in control flow are embedded over `ℚ` so that they stay
decidable.  Code of the repository that is referenced but not part of the
sources (the `base` module with `_compute_sr`, and the potential object) is
modelled from the specification and marked as such.
-/

open Finset

/-! ## Mesh interpolator: 1d interpolation weight tables

Embedding of `MeshInterpolator._compute_1d_weights`
(`src/src/torchpme/lib/mesh_interpolator.py`, lines 99-154).  The Python code
works on a whole batch of offsets at once; the embedding is per scalar offset
`x`.  Invalid orders raise `ValueError`, embedded as `none`. -/

noncomputable def compute_1d_weights (interpolation_order : ℕ) (x : ℝ) :
    Option (List ℝ) :=
  if interpolation_order = 1 then
    some [1]
  else if interpolation_order = 2 then
    some [1/2 * (1 - 2*x), 1/2 * (1 + 2*x)]
  else if interpolation_order = 3 then
    some [1/8 * (1 - 4*x + 4*(x*x)),
          1/4 * (3 - 4*(x*x)),
          1/8 * (1 + 4*x + 4*(x*x))]
  else if interpolation_order = 4 then
    some [1/48 * (1 - 6*x + 12*(x*x) - 8*(x*(x*x))),
          1/48 * (23 - 30*x - 12*(x*x) + 24*(x*(x*x))),
          1/48 * (23 + 30*x - 12*(x*x) - 24*(x*(x*x))),
          1/48 * (1 + 6*x + 12*(x*x) + 8*(x*(x*x)))]
  else if interpolation_order = 5 then
    some [1/384 * (1 - 8*x + 24*(x*x) - 32*(x*(x*x)) + 16*(x*(x*(x*x)))),
          1/96 * (19 - 44*x + 24*(x*x) + 16*(x*(x*x)) - 16*(x*(x*(x*x)))),
          1/192 * (115 - 120*(x*x) + 48*(x*(x*(x*x)))),
          1/96 * (19 + 44*x + 24*(x*x) - 16*(x*(x*x)) - 16*(x*(x*(x*x)))),
          1/384 * (1 + 8*x + 24*(x*x) + 32*(x*(x*x)) + 16*(x*(x*(x*x))))]
  else
    none

/-! ## Mesh interpolator and Ewald constructor validation

The validation code only inspects tensor shapes and devices, never tensor
values, so the embedding records exactly those. -/

/-- Shape and device metadata of a torch tensor, which is all that the
validation code of `MeshInterpolator` reads. -/
structure TensorMeta where
  shape : List ℕ
  device : ℕ
deriving DecidableEq

/-- Embedding of the validation sequence of `MeshInterpolator.__init__`
(`mesh_interpolator.py`, lines 37-50): `some msg` means a `ValueError` is
raised, `none` means construction proceeds.  No further input validation
follows in the constructor. -/
def meshInterpolatorInitCheck (cell ns_mesh : TensorMeta)
    (interpolation_order : ℤ) : Option String :=
  if cell.shape ≠ [3, 3] then
    some "cell should be of shape (3, 3)"
  else if ns_mesh.shape ≠ [3] then
    some "shape of ns_mesh has to be (3,)"
  else if interpolation_order ∉ ([1, 2, 3, 4, 5] : List ℤ) then
    some "Only interpolation_order from 1 to 5 are allowed"
  else if cell.device ≠ ns_mesh.device then
    some "cell and ns_mesh are on different devices"
  else
    none

/-- Embedding of the validation sequence of
`MeshInterpolator.compute_interpolation_weights`
(`mesh_interpolator.py`, lines 167-177): device check first, then the
`positions.shape != (n_positions, 3)` check, where
`n_positions = len(positions)` is the leading entry of the shape. -/
def interpolationWeightsCheck (positions : TensorMeta)
    (instance_device : ℕ) : Option String :=
  if positions.device ≠ instance_device then
    some "positions device is not the same as instance device"
  else if positions.shape ≠ [positions.shape.headD 0, 3] then
    some "shape of positions has to be (N, 3)"
  else
    none

/-- Embedding of the validation in `_EwaldPotentialImpl.__init__`
(`src/src/meshlode/calculators/ewaldpotential.py`, lines 18-21).  Float
parameters are embedded as rationals (every float is a rational, and only
order comparisons are performed).  `Except.error` is a raised `ValueError`. -/
def ewaldInit (exponent : ℚ) (atomic_smearing : Option ℚ) :
    Except String Unit :=
  if exponent < 0 ∨ exponent > 3 then
    Except.error "exponent p has to satisfy 0 < p < 3"
  else if (match atomic_smearing with
           | some s => decide (s ≤ 0)
           | none => false) then
    Except.error "atomic_smearing has to be positive"
  else
    Except.ok ()

/-! ## Ewald calculator: resolution of default convergence parameters

Embedding of `_EwaldPotentialImpl._compute_single_system`, lines 51-61 of
`ewaldpotential.py`. -/

/-- Row norms of the cell, `torch.linalg.norm(cell, dim=1)`. -/
noncomputable def cellDimensions (cell : Matrix (Fin 3) (Fin 3) ℝ) :
    Fin 3 → ℝ :=
  fun i => Real.sqrt (∑ j, (cell i j) ^ 2)

/-- Length of the shortest cell vector, `torch.min(cell_dimensions)`. -/
noncomputable def minCellDimension (cell : Matrix (Fin 3) (Fin 3) ℝ) : ℝ :=
  min (min (cellDimensions cell 0) (cellDimensions cell 1))
    (cellDimensions cell 2)

/-- Smearing actually used by `_compute_single_system` (lines 51-56): the
user-supplied value, or `(torch.min(cell_dimensions) / 2 - 1e-6) / 5.0` when
`atomic_smearing is None`. -/
noncomputable def resolvedSmearing (atomic_smearing : Option ℝ)
    (cell : Matrix (Fin 3) (Fin 3) ℝ) : ℝ :=
  match atomic_smearing with
  | none => (minCellDimension cell / 2 - 1e-6) / 5
  | some s => s

/-- Long-range wavelength actually used by `_compute_single_system`
(lines 58-61): the user-supplied value, or `0.5 * smearing`. -/
noncomputable def resolvedLrWavelength (lr_wavelength : Option ℝ)
    (smearing : ℝ) : ℝ :=
  match lr_wavelength with
  | none => 0.5 * smearing
  | some w => w

/-! ## Mesh interpolator: grid index computation

Embedding of `MeshInterpolator.compute_interpolation_weights`
(`mesh_interpolator.py`, lines 179-225), per particle and per axis. -/

/-- Entry `a` of `ns_mesh * torch.matmul(positions, self.inverse_cell)` for
one particle (line 180): a row vector times a matrix. -/
noncomputable def relativePosition (ns_mesh : Fin 3 → ℤ)
    (inverse_cell : Matrix (Fin 3) (Fin 3) ℝ) (position : Fin 3 → ℝ)
    (a : Fin 3) : ℝ :=
  (ns_mesh a : ℝ) * ∑ c, position c * inverse_cell c a

/-- `torch.round`: round to nearest integer, ties to even. -/
noncomputable def torchRound (x : ℝ) : ℤ :=
  if Int.fract x = 1/2 then (if 2 ∣ ⌊x⌋ then ⌊x⌋ else ⌊x⌋ + 1)
  else round x

/-- `positions_rel_idx` (lines 183-188): `floor` for even interpolation
orders, `round` for odd ones. -/
noncomputable def positionsRelIdx (interpolation_order : ℕ) (x : ℝ) : ℤ :=
  if interpolation_order % 2 = 0 then ⌊x⌋ else torchRound x

/-- `indices_to_interpolate` along one axis (lines 198-207): the stack of
`(positions_rel_idx + i) % self.ns_mesh` for
`i in range(1 - (order + 1) // 2, 1 + order // 2)`, a list of
`interpolation_order` wrapped indices.  Python's `%` on a positive modulus
agrees with `Int.emod`. -/
def indicesToInterpolate (interpolation_order : ℕ) (rel_idx n : ℤ) :
    List ℤ :=
  (List.range interpolation_order).map
    (fun s => (rel_idx + (1 - ((interpolation_order : ℤ) + 1) / 2 + s)) % n)

/-- All mesh indices stored for one particle along one axis, as produced by
`compute_interpolation_weights` from the relative position. -/
noncomputable def occupiedIndices (interpolation_order : ℕ) (n : ℤ)
    (x : ℝ) : List ℤ :=
  indicesToInterpolate interpolation_order
    (positionsRelIdx interpolation_order x) n

/-! ## Reciprocal-lattice generator

Embedding of `_generate_kvectors` (`src/src/torchpme/lib/kvectors.py`,
lines 21-46), per grid index and output component. -/

/-- Reciprocal basis `2 * torch.pi * inverse_cell.T` (line 27); row `j` is
the reciprocal basis vector `b_j`.  The Mathlib nonsingular inverse is used;
the source raises on a singular cell. -/
noncomputable def reciprocalCell (cell : Matrix (Fin 3) (Fin 3) ℝ) :
    Matrix (Fin 3) (Fin 3) ℝ :=
  (2 * Real.pi) • cell⁻¹.transpose

/-- Integer DFT frequency `n * torch.fft.fftfreq(n)[i]` for `0 ≤ i < n`:
`i` for `i < (n + 1) // 2`, else `i - n`. -/
def fftfreqN (n i : ℤ) : ℤ :=
  if i < (n + 1) / 2 then i else i - n

/-- Integer frequency used on axis `a` (lines 36-42): signed `fftfreq` on all
axes for the Ewald variant; on the third axis the mesh variant uses the
non-negative `rfftfreq`, for which `n * rfftfreq(n)[i] = i`. -/
def axisFreq (for_ewald : Bool) (a : Fin 3) (n i : ℤ) : ℤ :=
  if for_ewald = false ∧ a = 2 then i else fftfreqN n i

/-- Component `c` of the k-vector at grid index `idx` (line 46): the sum over
the three axes of the integer frequency times the reciprocal basis row. -/
noncomputable def kvectorAt (for_ewald : Bool) (ns : Fin 3 → ℤ)
    (cell : Matrix (Fin 3) (Fin 3) ℝ) (idx : Fin 3 → ℤ) (c : Fin 3) : ℝ :=
  ∑ a, (axisFreq for_ewald a (ns a) (idx a) : ℝ) * reciprocalCell cell a c

/-! ## Mesh interpolator: scatter and gather

Embedding of `MeshInterpolator.points_to_mesh` (lines 254-274) and
`MeshInterpolator.mesh_to_points` (lines 297-306).  The interpolation state
fixed by `compute_interpolation_weights` consists of the stored weights
`interpolation_weights[shift, particle, axis]` (here `W`) and the per-axis
wrapped index maps (`x_indices`, `y_indices`, `z_indices`; here `xIdx`,
`yIdx`, `zIdx`).  The source flattens the meshgrid of the `order³` shift
combinations into `x_shifts`, `y_shifts`, `z_shifts`; here that flattened
enumeration is the triple sum over `sx`, `sy`, `sz`. -/

/-- `points_to_mesh`: scatter-accumulate
(`index_put_(..., accumulate=True)`) of `particle_weights[:, a]` times the
three per-axis interpolation weights onto the mesh; the value at mesh point
`(px, py, pz)` is the sum of every contribution whose wrapped indices hit
that point. -/
noncomputable def points_to_mesh {order N C nx ny nz : ℕ}
    (W : Fin order → Fin N → Fin 3 → ℝ)
    (xIdx : Fin order → Fin N → Fin nx)
    (yIdx : Fin order → Fin N → Fin ny)
    (zIdx : Fin order → Fin N → Fin nz)
    (particle_weights : Fin N → Fin C → ℝ)
    (a : Fin C) (px : Fin nx) (py : Fin ny) (pz : Fin nz) : ℝ :=
  ∑ sx, ∑ sy, ∑ sz, ∑ i,
    if xIdx sx i = px ∧ yIdx sy i = py ∧ zIdx sz i = pz then
      particle_weights i a * W sx i 0 * W sy i 1 * W sz i 2
    else 0

/-- `mesh_to_points`: gather the same `order³` grid cells per particle and
weighted-sum them with the same interpolation weights. -/
noncomputable def mesh_to_points {order N C nx ny nz : ℕ}
    (W : Fin order → Fin N → Fin 3 → ℝ)
    (xIdx : Fin order → Fin N → Fin nx)
    (yIdx : Fin order → Fin N → Fin ny)
    (zIdx : Fin order → Fin N → Fin nz)
    (mesh_vals : Fin C → Fin nx → Fin ny → Fin nz → ℝ)
    (i : Fin N) (a : Fin C) : ℝ :=
  ∑ sx, ∑ sy, ∑ sz,
    mesh_vals a (xIdx sx i) (yIdx sy i) (zIdx sz i) *
      W sx i 0 * W sy i 1 * W sz i 2

/-- Stored interpolation weights as set up by
`compute_interpolation_weights` (line 191): entry `s` of the 1d weight list
of `_compute_1d_weights` evaluated at the per-axis offset of the particle. -/
noncomputable def stateWeights (order : ℕ) {N : ℕ}
    (offsets : Fin N → Fin 3 → ℝ) :
    Fin order → Fin N → Fin 3 → ℝ :=
  fun s i ax =>
    ((compute_1d_weights order (offsets i ax)).getD []).getD (s : ℕ) 0

/-! ## Ewald direct-sum potential

Embedding of `_EwaldPotentialImpl._compute_lr` and
`_compute_single_system` (`ewaldpotential.py`, lines 34-157), for one charge
channel; the computation is applied to each charge channel independently
(lines 125-137 merely broadcast it). -/

/-- Modelled from the spec: the potential object consulted by `_compute_lr`
(`self.potential`) is defined outside these sources; design note §9 fixes
its capability set, of which `potential_fourier_from_k_sq(k_sq, smearing)`
and `potential_fourier_at_zero(smearing)` are used here.  Both are abstract
real functions. -/
structure PotentialImpl where
  potential_fourier_from_k_sq : ℝ → ℝ → ℝ
  potential_fourier_at_zero : ℝ → ℝ

/-- Self-energy constant `torch.sqrt(2.0 / torch.pi) / smearing`
(lines 151-154). -/
noncomputable def selfContrib (smearing : ℝ) : ℝ :=
  Real.sqrt (2 / Real.pi) / smearing

/-- Embedding of `_EwaldPotentialImpl._compute_lr` (lines 85-157).  The
per-axis k-vector counts follow lines 94-101 (`ceil` of the cutoff-scaled
basis norms); the k-vector at flattened grid index `(i1, i2, i3)` is the
embedded `_generate_kvectors` in the Ewald (signed `fftfreq`) convention
(`generate_kvectors_squeezed` flattens exactly this grid, with index 0 the
zero vector, which receives the `G[0]` special case of line 115); the energy
is the trigonometric sum of lines 121-145 divided by `|cell.det()|`; and the
self term is subtracted when `subtract_self` is set (lines 150-155, Python
default `True`). -/
noncomputable def compute_lr (P : PotentialImpl) {N : ℕ}
    (positions : Fin N → Fin 3 → ℝ) (charges : Fin N → ℝ)
    (cell : Matrix (Fin 3) (Fin 3) ℝ) (smearing lr_wavelength : ℝ)
    (subtract_self : Bool) : Fin N → ℝ :=
  let k_cutoff := 2 * Real.pi / lr_wavelength
  let ns : Fin 3 → ℤ :=
    fun a => ⌈k_cutoff * cellDimensions cell a / 2 / Real.pi⌉
  fun i =>
    (∑ i1 ∈ Finset.range (ns 0).toNat, ∑ i2 ∈ Finset.range (ns 1).toNat,
      ∑ i3 ∈ Finset.range (ns 2).toNat,
        (if i1 = 0 ∧ i2 = 0 ∧ i3 = 0 then
          P.potential_fourier_at_zero smearing
        else
          P.potential_fourier_from_k_sq
            (∑ c, kvectorAt true ns cell ![(i1 : ℤ), (i2 : ℤ), (i3 : ℤ)] c
              ^ 2)
            smearing) *
        (Real.cos (∑ c,
            kvectorAt true ns cell ![(i1 : ℤ), (i2 : ℤ), (i3 : ℤ)] c *
              positions i c) *
          (∑ j, charges j * Real.cos (∑ c,
            kvectorAt true ns cell ![(i1 : ℤ), (i2 : ℤ), (i3 : ℤ)] c *
              positions j c)) +
        Real.sin (∑ c,
            kvectorAt true ns cell ![(i1 : ℤ), (i2 : ℤ), (i3 : ℤ)] c *
              positions i c) *
          (∑ j, charges j * Real.sin (∑ c,
            kvectorAt true ns cell ![(i1 : ℤ), (i2 : ℤ), (i3 : ℤ)] c *
              positions j c)))) /
      |cell.det| -
    (if subtract_self then charges i * selfContrib smearing else 0)

/-- Distance `|pos_j - pos_i + shift · cell|` for one neighbor pair, per the
external-interface contract of the spec (§6). -/
noncomputable def pairDist {N : ℕ} (positions : Fin N → Fin 3 → ℝ)
    (cell : Matrix (Fin 3) (Fin 3) ℝ) (pair : Fin N × Fin N)
    (shift : Fin 3 → ℤ) : ℝ :=
  Real.sqrt (∑ c, (positions pair.2 c - positions pair.1 c +
    ∑ a, (shift a : ℝ) * cell a c) ^ 2)

/-- Modelled from the spec: `_ShortRange._compute_sr` lives in the `base`
module, which is not part of these sources.  Per spec §4.4 step 7 and §6 it
accumulates, onto the first atom of each supplied neighbor pair, the
neighbor's charge times a distance- and smearing-dependent short-range
kernel, optionally subtracting the full interior kernel when
`subtract_interior` is set; it depends on no other flag (in particular not
on `subtract_self`).  The two kernels are abstract parameters. -/
noncomputable def compute_sr (sr_kernel full_kernel : ℝ → ℝ → ℝ)
    {N Np : ℕ} (positions : Fin N → Fin 3 → ℝ) (charges : Fin N → ℝ)
    (cell : Matrix (Fin 3) (Fin 3) ℝ) (smearing : ℝ)
    (neighbor_indices : Fin Np → Fin N × Fin N)
    (neighbor_shifts : Fin Np → Fin 3 → ℤ)
    (subtract_interior : Bool) : Fin N → ℝ :=
  fun i => ∑ p,
    if (neighbor_indices p).1 = i then
      charges (neighbor_indices p).2 *
        (sr_kernel (pairDist positions cell (neighbor_indices p)
            (neighbor_shifts p)) smearing -
          if subtract_interior then
            full_kernel (pairDist positions cell (neighbor_indices p)
              (neighbor_shifts p)) smearing
          else 0)
    else 0

/-- Embedding of `_EwaldPotentialImpl._compute_single_system`
(lines 34-83): resolve the convergence parameters, then add the short-range
and long-range parts.  The call to `_compute_lr` at lines 74-80 does NOT
pass `subtract_self`, so the Python default `subtract_self=True` applies
there; the calculator's stored `subtract_self` flag (the `subtract_self`
parameter below) is never consulted. -/
noncomputable def compute_single_system (P : PotentialImpl)
    (sr_kernel full_kernel : ℝ → ℝ → ℝ)
    (subtract_self subtract_interior : Bool)
    (atomic_smearing lr_wavelength : Option ℝ) {N Np : ℕ}
    (positions : Fin N → Fin 3 → ℝ) (charges : Fin N → ℝ)
    (cell : Matrix (Fin 3) (Fin 3) ℝ)
    (neighbor_indices : Fin Np → Fin N × Fin N)
    (neighbor_shifts : Fin Np → Fin 3 → ℤ) : Fin N → ℝ :=
  let smearing := resolvedSmearing atomic_smearing cell
  let lrw := resolvedLrWavelength lr_wavelength smearing
  fun i =>
    compute_sr sr_kernel full_kernel positions charges cell smearing
      neighbor_indices neighbor_shifts subtract_interior i +
    compute_lr P positions charges cell smearing lrw true i

/-! ## Ewald direct-sum potential: long-range energy, abstracted

For the refinement claim the energy of lines 121-145 is stated over an
arbitrary list of k-vectors with arbitrary kernel values `G`, with the
channel dimension explicit (`charges[j, ch]` as `charges ch j`). -/

/-- Energy as computed by `_compute_lr` (lines 121-145): per k-vector
cosine/sine projections of positions, charge-weighted sums over particles
(`cos_summed`, `sin_summed`), accumulation over k-vectors and division by
`|cell.det()|`. -/
noncomputable def lr_energy_trig {K N C : ℕ} (G : Fin K → ℝ)
    (kvectors : Fin K → Fin 3 → ℝ) (positions : Fin N → Fin 3 → ℝ)
    (charges : Fin C → Fin N → ℝ) (cell : Matrix (Fin 3) (Fin 3) ℝ)
    (i : Fin N) (ch : Fin C) : ℝ :=
  (∑ k, G k * Real.cos (∑ c, kvectors k c * positions i c) *
      (∑ j, charges ch j *
        Real.cos (∑ c, kvectors k c * positions j c)) +
   ∑ k, G k * Real.sin (∑ c, kvectors k c * positions i c) *
      (∑ j, charges ch j *
        Real.sin (∑ c, kvectors k c * positions j c))) /
  |cell.det|

/-- The naive pairwise double sum that the trigonometric precomputation is
claimed to equal:
`energy[i] = (1/|det cell|) ∑_k G(k) ∑_j q_j cos(k · (r_i - r_j))`. -/
noncomputable def lr_energy_naive {K N C : ℕ} (G : Fin K → ℝ)
    (kvectors : Fin K → Fin 3 → ℝ) (positions : Fin N → Fin 3 → ℝ)
    (charges : Fin C → Fin N → ℝ) (cell : Matrix (Fin 3) (Fin 3) ℝ)
    (i : Fin N) (ch : Fin C) : ℝ :=
  (∑ k, G k * ∑ j, charges ch j *
    Real.cos (∑ c, kvectors k c * (positions i c - positions j c))) /
  |cell.det|

/-! ## Theorems -/

/-- A shape list equals `[its head, 3]` exactly when it is of the form
`[n, 3]`. -/
lemma shape_pair_iff (s : List ℕ) : s = [s.headD 0, 3] ↔ ∃ n, s = [n, 3] := by
  constructor
  · intro h
    exact ⟨s.headD 0, h⟩
  · rintro ⟨n, rfl⟩
    rfl

/-- C3: for every interpolation order in {1,2,3,4,5} and every offset `x`, the
per-axis interpolation weights produced by
`MeshInterpolator._compute_1d_weights` sum to exactly 1 over the kernel
support (an exact polynomial identity in `x` for each tabulated coefficient
set). -/
theorem compute_1d_weights_sum_to_one (interpolation_order : ℕ) (x : ℝ)
    (w : List ℝ) (h : compute_1d_weights interpolation_order x = some w) :
    w.sum = 1 := by
  unfold compute_1d_weights at h
  split_ifs at h <;> injection h with h <;> subst h <;>
    simp [List.sum_cons] <;> ring

/-- Witness for C3: concrete evaluation at order 2, `x = 3/7`. -/
theorem compute_1d_weights_sum_to_one_witness :
    compute_1d_weights 2 (3/7) =
      some [1/2 * (1 - 2*(3/7)), 1/2 * (1 + 2*(3/7))] ∧
    ([1/2 * (1 - 2*(3/7: ℝ)), 1/2 * (1 + 2*(3/7))] : List ℝ).sum = 1 :=
  ⟨rfl, compute_1d_weights_sum_to_one 2 (3/7) _ rfl⟩

/-- C9: `MeshInterpolator` raises a validation error if and only if one of the
stated preconditions is violated: the constructor accepts exactly when the
cell shape is (3, 3), the `ns_mesh` shape is (3,), the interpolation order is
in {1,2,3,4,5} and cell and `ns_mesh` share a device;
`compute_interpolation_weights` accepts exactly when positions have shape
(N, 3) and live on the instance's device.  Both embedded checks read only
shape and device metadata, so no other property of the inputs (in particular
not invertibility of the cell) is validated. -/
theorem mesh_interpolator_validation_iff :
    (∀ (cell ns_mesh : TensorMeta) (interpolation_order : ℤ),
      meshInterpolatorInitCheck cell ns_mesh interpolation_order = none ↔
        (cell.shape = [3, 3] ∧ ns_mesh.shape = [3] ∧
         interpolation_order ∈ ([1, 2, 3, 4, 5] : List ℤ) ∧
         cell.device = ns_mesh.device)) ∧
    (∀ (positions : TensorMeta) (instance_device : ℕ),
      interpolationWeightsCheck positions instance_device = none ↔
        ((∃ n, positions.shape = [n, 3]) ∧
         positions.device = instance_device)) := by
  constructor
  · intro cell ns_mesh interpolation_order
    unfold meshInterpolatorInitCheck
    split_ifs with h1 h2 h3 h4 <;> simp_all
  · intro positions instance_device
    unfold interpolationWeightsCheck
    split_ifs with h1 h2
    · constructor
      · intro hc
        exact hc.elim
      · intro hc
        exact absurd hc.2 h1
    · constructor
      · intro hc
        exact hc.elim
      · intro hc
        exact h2 ((shape_pair_iff _).mpr hc.1)
    · simp only [not_not] at h1 h2
      exact iff_of_true rfl ⟨(shape_pair_iff _).mp h2, h1⟩

/-- C6 (code bug): the `_EwaldPotentialImpl` constructor checks
`exponent < 0 or exponent > 3`, so it raises exactly on `p < 0 ∨ p > 3`; in
particular `exponent = 0` is accepted, although the claim (and the code's own
error message `0 < p < 3`) requires every exponent outside (0, 3] to be
rejected. -/
theorem ewald_exponent_zero_accepted :
    ewaldInit 0 none = Except.ok () ∧
    (∀ p : ℚ, ewaldInit p none = Except.ok () ↔ ¬(p < 0 ∨ p > 3)) := by
  constructor
  · rfl
  · intro p
    unfold ewaldInit
    split_ifs with h h2 <;> simp_all

/-- Helper for C5: every row of the identity cell has norm 1. -/
lemma cellDimensions_one (i : Fin 3) :
    cellDimensions (1 : Matrix (Fin 3) (Fin 3) ℝ) i = 1 := by
  unfold cellDimensions
  have h : (∑ j, ((1 : Matrix (Fin 3) (Fin 3) ℝ) i j) ^ 2) = 1 := by
    fin_cases i <;>
      simp [Fin.sum_univ_three, Matrix.one_apply, Fin.ext_iff] <;> decide
  rw [h, Real.sqrt_one]

/-- Helper for C5: the shortest cell vector of the identity cell has
length 1. -/
lemma minCellDimension_one :
    minCellDimension (1 : Matrix (Fin 3) (Fin 3) ℝ) = 1 := by
  unfold minCellDimension
  rw [cellDimensions_one 0, cellDimensions_one 1, cellDimensions_one 2]
  norm_num

/-- C5 counterexample: for the identity cell the smearing used when
`atomic_smearing is None` is `(1/2 - 1e-6)/5`, which is NOT exactly one tenth
of the shortest cell vector length, refuting the claim's "exactly". -/
theorem default_smearing_not_tenth_of_min_cell :
    resolvedSmearing none (1 : Matrix (Fin 3) (Fin 3) ℝ) ≠
      minCellDimension (1 : Matrix (Fin 3) (Fin 3) ℝ) / 10 := by
  show (minCellDimension (1 : Matrix (Fin 3) (Fin 3) ℝ) / 2 - 1e-6) / 5 ≠ _
  rw [minCellDimension_one]
  norm_num

/-- C5 amended: when `atomic_smearing is None` the smearing used equals
`min_i ‖cell[i]‖ / 10 - 2e-7` (one fifth of (half the shortest cell vector
length minus the 1e-6 safety margin)), and when `lr_wavelength is None` the
k-space resolution used equals exactly half the smearing. -/
theorem default_parameter_resolution :
    (∀ cell : Matrix (Fin 3) (Fin 3) ℝ,
      resolvedSmearing none cell = minCellDimension cell / 10 - 2e-7) ∧
    (∀ smearing : ℝ,
      resolvedLrWavelength none smearing = smearing / 2) := by
  constructor
  · intro cell
    show (minCellDimension cell / 2 - 1e-6) / 5 = _
    rw [show (1e-6 : ℝ) = 2e-7 * 5 by norm_num,
      show (2e-7 : ℝ) = 2e-7 from rfl]
    ring
  · intro smearing
    show 0.5 * smearing = smearing / 2
    rw [show (0.5 : ℝ) = 1/2 by norm_num]
    ring

/-- C7: every mesh index stored by `compute_interpolation_weights` for a
particle lies in `[0, ns_mesh[axis])` for its axis, for any position
(including positions outside the cell whose relative indices are negative or
exceed the mesh size), because indices are reduced modulo the mesh dimension
with non-negative results. -/
theorem mesh_indices_in_range (interpolation_order : ℕ)
    (ns_mesh : Fin 3 → ℤ) (inverse_cell : Matrix (Fin 3) (Fin 3) ℝ)
    (position : Fin 3 → ℝ) (a : Fin 3) (idx : ℤ)
    (hn : 0 < ns_mesh a)
    (hidx : idx ∈ occupiedIndices interpolation_order (ns_mesh a)
      (relativePosition ns_mesh inverse_cell position a)) :
    0 ≤ idx ∧ idx < ns_mesh a := by
  unfold occupiedIndices indicesToInterpolate at hidx
  simp only [List.mem_map, List.mem_range] at hidx
  obtain ⟨s, _, rfl⟩ := hidx
  exact ⟨Int.emod_nonneg _ (ne_of_gt hn), Int.emod_lt_of_pos _ hn⟩

/-- Witness for C7: a particle at the origin of a mesh with `ns_mesh = 5`
along every axis, interpolation order 1; the stored index 0 is in range. -/
theorem mesh_indices_in_range_witness :
    (0 : ℤ) < (fun _ : Fin 3 => (5 : ℤ)) 0 ∧
    (0 : ℤ) ∈ occupiedIndices 1 ((fun _ : Fin 3 => (5 : ℤ)) 0)
      (relativePosition (fun _ => 5) 1 (fun _ => 0) 0) ∧
    (0 ≤ (0 : ℤ) ∧ (0 : ℤ) < (fun _ : Fin 3 => (5 : ℤ)) 0) := by
  have hrel : relativePosition (fun _ : Fin 3 => (5 : ℤ)) 1 (fun _ => 0) 0
      = 0 := by
    simp [relativePosition]
  have hfract : Int.fract (0 : ℝ) ≠ 1/2 := by
    rw [Int.fract_zero]; norm_num
  have hrd : positionsRelIdx 1 0 = 0 := by
    simp [positionsRelIdx, torchRound, hfract]
  have hmem : (0 : ℤ) ∈ occupiedIndices 1 ((fun _ : Fin 3 => (5 : ℤ)) 0)
      (relativePosition (fun _ => 5) 1 (fun _ => 0) 0) := by
    show (0 : ℤ) ∈ occupiedIndices 1 5
      (relativePosition (fun _ => 5) 1 (fun _ => 0) 0)
    rw [hrel]
    unfold occupiedIndices
    rw [hrd]
    unfold indicesToInterpolate
    simp
  exact ⟨by norm_num, hmem,
    mesh_indices_in_range 1 (fun _ => 5) 1 (fun _ => 0) 0 0 (by norm_num)
      hmem⟩

/-- C8: for every invertible cell, every grid index and both conventions, the
generated k-vector satisfies `cell · k = 2π · f` with `f` the integer DFT
frequency of that index (signed `fftfreq` everywhere for the Ewald variant,
non-negative `rfftfreq` on the third axis for the mesh variant); the
reciprocal basis rows satisfy `cell[l] · b_j = 2π · δ_lj` exactly; and the
k-vector at grid index 0 is the zero vector. -/
theorem kvector_duality (cell : Matrix (Fin 3) (Fin 3) ℝ)
    (ns : Fin 3 → ℤ) (for_ewald : Bool) (idx : Fin 3 → ℤ) (l j : Fin 3)
    (hdet : cell.det ≠ 0) (hns : 1 ≤ ns 0 ∧ 1 ≤ ns 1 ∧ 1 ≤ ns 2) :
    (∑ c, cell l c * reciprocalCell cell j c =
      2 * Real.pi * (if l = j then 1 else 0)) ∧
    (∑ c, cell l c * kvectorAt for_ewald ns cell idx c =
      2 * Real.pi * (axisFreq for_ewald l (ns l) (idx l) : ℝ)) ∧
    kvectorAt for_ewald ns cell (fun _ => 0) l = 0 := by
  have hinv : cell * cell⁻¹ = 1 :=
    Matrix.mul_nonsing_inv cell (isUnit_iff_ne_zero.mpr hdet)
  have key : ∀ b : Fin 3, ∑ c, cell l c * cell⁻¹ c b =
      if l = b then 1 else 0 := by
    intro b
    have h := congrArg (fun M => M l b) hinv
    simpa [Matrix.mul_apply, Matrix.one_apply] using h
  have dual : ∀ b : Fin 3, ∑ c, cell l c * reciprocalCell cell b c =
      2 * Real.pi * (if l = b then 1 else 0) := by
    intro b
    unfold reciprocalCell
    simp only [Matrix.smul_apply, Matrix.transpose_apply, smul_eq_mul]
    have hpull : ∑ c, cell l c * (2 * Real.pi * cell⁻¹ c b) =
        2 * Real.pi * ∑ c, cell l c * cell⁻¹ c b := by
      rw [Finset.mul_sum]
      exact Finset.sum_congr rfl (fun c _ => by ring)
    rw [hpull, key b]
  have hns3 : ∀ a : Fin 3, 1 ≤ ns a := by
    intro a
    fin_cases a
    · exact hns.1
    · exact hns.2.1
    · exact hns.2.2
  refine ⟨dual j, ?_, ?_⟩
  · unfold kvectorAt
    have hswap : ∑ c, cell l c *
        ∑ a, (axisFreq for_ewald a (ns a) (idx a) : ℝ) *
          reciprocalCell cell a c =
        ∑ a, (axisFreq for_ewald a (ns a) (idx a) : ℝ) *
          ∑ c, cell l c * reciprocalCell cell a c := by
      calc ∑ c, cell l c *
            ∑ a, (axisFreq for_ewald a (ns a) (idx a) : ℝ) *
              reciprocalCell cell a c
          = ∑ c, ∑ a, (axisFreq for_ewald a (ns a) (idx a) : ℝ) *
              (cell l c * reciprocalCell cell a c) := by
            refine Finset.sum_congr rfl (fun c _ => ?_)
            rw [Finset.mul_sum]
            exact Finset.sum_congr rfl (fun a _ => by ring)
        _ = ∑ a, ∑ c, (axisFreq for_ewald a (ns a) (idx a) : ℝ) *
              (cell l c * reciprocalCell cell a c) := Finset.sum_comm
        _ = ∑ a, (axisFreq for_ewald a (ns a) (idx a) : ℝ) *
              ∑ c, cell l c * reciprocalCell cell a c := by
            refine Finset.sum_congr rfl (fun a _ => ?_)
            rw [Finset.mul_sum]
    rw [hswap]
    have hterm : ∀ a : Fin 3,
        (axisFreq for_ewald a (ns a) (idx a) : ℝ) *
          ∑ c, cell l c * reciprocalCell cell a c =
        if l = a then
          2 * Real.pi * (axisFreq for_ewald a (ns a) (idx a) : ℝ)
        else 0 := by
      intro a
      rw [dual a]
      split_ifs with h
      · ring
      · ring
    rw [Finset.sum_congr rfl (fun a _ => hterm a)]
    simp
  · have hfreq : ∀ a : Fin 3, axisFreq for_ewald a (ns a) 0 = 0 := by
      intro a
      have h1 := hns3 a
      unfold axisFreq fftfreqN
      split_ifs <;> omega
    unfold kvectorAt
    rw [Finset.sum_congr rfl
      (fun a _ => by rw [hfreq a, Int.cast_zero, zero_mul])]
    exact Finset.sum_const_zero

/-- Witness for C8: identity cell, `ns = (2, 3, 4)`, Ewald convention, grid
index `(1, 2, 3)`, with `l = 0`, `j = 1`. -/
theorem kvector_duality_witness :
    ((1 : Matrix (Fin 3) (Fin 3) ℝ).det ≠ 0) ∧
    (1 ≤ (![2, 3, 4] : Fin 3 → ℤ) 0 ∧ 1 ≤ (![2, 3, 4] : Fin 3 → ℤ) 1 ∧
      1 ≤ (![2, 3, 4] : Fin 3 → ℤ) 2) ∧
    ((∑ c, (1 : Matrix (Fin 3) (Fin 3) ℝ) 0 c * reciprocalCell 1 1 c =
        2 * Real.pi * (if (0 : Fin 3) = 1 then 1 else 0)) ∧
      (∑ c, (1 : Matrix (Fin 3) (Fin 3) ℝ) 0 c *
          kvectorAt true ![2, 3, 4] 1 ![1, 2, 3] c =
        2 * Real.pi *
          (axisFreq true 0 ((![2, 3, 4] : Fin 3 → ℤ) 0)
            ((![1, 2, 3] : Fin 3 → ℤ) 0) : ℝ)) ∧
      kvectorAt true ![2, 3, 4] 1 (fun _ => 0) 0 = 0) :=
  ⟨by simp, by decide,
    kvector_duality 1 ![2, 3, 4] true ![1, 2, 3] 0 1 (by simp) (by decide)⟩

/-- Helper: pull the innermost index of a quadruply nested sum to the
front. -/
lemma sum_rotate3 {α β γ δ : Type} [Fintype α] [Fintype β] [Fintype γ]
    [Fintype δ] (f : α → β → γ → δ → ℝ) :
    ∑ x, ∑ y, ∑ z, ∑ w, f x y z w = ∑ w, ∑ x, ∑ y, ∑ z, f x y z w := by
  calc ∑ x, ∑ y, ∑ z, ∑ w, f x y z w
      = ∑ x, ∑ y, ∑ w, ∑ z, f x y z w :=
        Finset.sum_congr rfl fun x _ => Finset.sum_congr rfl fun y _ =>
          Finset.sum_comm
    _ = ∑ x, ∑ w, ∑ y, ∑ z, f x y z w :=
        Finset.sum_congr rfl fun x _ => Finset.sum_comm
    _ = ∑ w, ∑ x, ∑ y, ∑ z, f x y z w := Finset.sum_comm

/-- Helper: a triple sum over an indicator of a fixed mesh point collapses to
the value at that point. -/
lemma sum_ite_eq3 {nx ny nz : ℕ} (u : Fin nx) (v : Fin ny) (w : Fin nz)
    (f : Fin nx → Fin ny → Fin nz → ℝ) :
    (∑ px, ∑ py, ∑ pz,
      if u = px ∧ v = py ∧ w = pz then f px py pz else 0) = f u v w := by
  simp [ite_and, Finset.sum_ite_eq]

/-- C4: for every fixed interpolation state (weights `W` and wrapped index
maps), every particle-weight matrix `q` and every mesh array `m`, the inner
product of `points_to_mesh q` with `m` over all mesh points and channels
equals the inner product of `q` with `mesh_to_points m` over all particles
and channels: `mesh_to_points` is the mathematical adjoint of
`points_to_mesh`. -/
theorem mesh_to_points_adjoint_of_points_to_mesh {order N C nx ny nz : ℕ}
    (W : Fin order → Fin N → Fin 3 → ℝ)
    (xIdx : Fin order → Fin N → Fin nx)
    (yIdx : Fin order → Fin N → Fin ny)
    (zIdx : Fin order → Fin N → Fin nz)
    (q : Fin N → Fin C → ℝ)
    (m : Fin C → Fin nx → Fin ny → Fin nz → ℝ) :
    ∑ a, ∑ px, ∑ py, ∑ pz,
        points_to_mesh W xIdx yIdx zIdx q a px py pz * m a px py pz =
      ∑ i, ∑ a, q i a * mesh_to_points W xIdx yIdx zIdx m i a := by
  have main : ∀ a : Fin C,
      ∑ px, ∑ py, ∑ pz,
          points_to_mesh W xIdx yIdx zIdx q a px py pz * m a px py pz =
        ∑ i, q i a * mesh_to_points W xIdx yIdx zIdx m i a := by
    intro a
    unfold points_to_mesh mesh_to_points
    calc ∑ px, ∑ py, ∑ pz,
          (∑ sx, ∑ sy, ∑ sz, ∑ i,
            if xIdx sx i = px ∧ yIdx sy i = py ∧ zIdx sz i = pz then
              q i a * W sx i 0 * W sy i 1 * W sz i 2
            else 0) * m a px py pz
        = ∑ px, ∑ py, ∑ pz, ∑ sx, ∑ sy, ∑ sz, ∑ i,
            (if xIdx sx i = px ∧ yIdx sy i = py ∧ zIdx sz i = pz then
              q i a * W sx i 0 * W sy i 1 * W sz i 2 * m a px py pz
            else 0) := by
          refine Finset.sum_congr rfl fun px _ => ?_
          refine Finset.sum_congr rfl fun py _ => ?_
          refine Finset.sum_congr rfl fun pz _ => ?_
          simp only [Finset.sum_mul, ite_mul, zero_mul]
      _ = ∑ sx, ∑ px, ∑ py, ∑ pz, ∑ sy, ∑ sz, ∑ i,
            (if xIdx sx i = px ∧ yIdx sy i = py ∧ zIdx sz i = pz then
              q i a * W sx i 0 * W sy i 1 * W sz i 2 * m a px py pz
            else 0) :=
          sum_rotate3 (fun px py pz sx => ∑ sy, ∑ sz, ∑ i,
            (if xIdx sx i = px ∧ yIdx sy i = py ∧ zIdx sz i = pz then
              q i a * W sx i 0 * W sy i 1 * W sz i 2 * m a px py pz
            else 0))
      _ = ∑ sx, ∑ sy, ∑ px, ∑ py, ∑ pz, ∑ sz, ∑ i,
            (if xIdx sx i = px ∧ yIdx sy i = py ∧ zIdx sz i = pz then
              q i a * W sx i 0 * W sy i 1 * W sz i 2 * m a px py pz
            else 0) :=
          Finset.sum_congr rfl fun sx _ =>
            sum_rotate3 (fun px py pz sy => ∑ sz, ∑ i,
              (if xIdx sx i = px ∧ yIdx sy i = py ∧ zIdx sz i = pz then
                q i a * W sx i 0 * W sy i 1 * W sz i 2 * m a px py pz
              else 0))
      _ = ∑ sx, ∑ sy, ∑ sz, ∑ px, ∑ py, ∑ pz, ∑ i,
            (if xIdx sx i = px ∧ yIdx sy i = py ∧ zIdx sz i = pz then
              q i a * W sx i 0 * W sy i 1 * W sz i 2 * m a px py pz
            else 0) :=
          Finset.sum_congr rfl fun sx _ => Finset.sum_congr rfl fun sy _ =>
            sum_rotate3 (fun px py pz sz => ∑ i,
              (if xIdx sx i = px ∧ yIdx sy i = py ∧ zIdx sz i = pz then
                q i a * W sx i 0 * W sy i 1 * W sz i 2 * m a px py pz
              else 0))
      _ = ∑ sx, ∑ sy, ∑ sz, ∑ i, ∑ px, ∑ py, ∑ pz,
            (if xIdx sx i = px ∧ yIdx sy i = py ∧ zIdx sz i = pz then
              q i a * W sx i 0 * W sy i 1 * W sz i 2 * m a px py pz
            else 0) :=
          Finset.sum_congr rfl fun sx _ => Finset.sum_congr rfl fun sy _ =>
            Finset.sum_congr rfl fun sz _ =>
              sum_rotate3 (fun px py pz i =>
                (if xIdx sx i = px ∧ yIdx sy i = py ∧ zIdx sz i = pz then
                  q i a * W sx i 0 * W sy i 1 * W sz i 2 * m a px py pz
                else 0))
      _ = ∑ sx, ∑ sy, ∑ sz, ∑ i,
            q i a * W sx i 0 * W sy i 1 * W sz i 2 *
              m a (xIdx sx i) (yIdx sy i) (zIdx sz i) :=
          Finset.sum_congr rfl fun sx _ => Finset.sum_congr rfl fun sy _ =>
            Finset.sum_congr rfl fun sz _ =>
              Finset.sum_congr rfl fun i _ =>
                sum_ite_eq3 (xIdx sx i) (yIdx sy i) (zIdx sz i)
                  (fun px py pz =>
                    q i a * W sx i 0 * W sy i 1 * W sz i 2 * m a px py pz)
      _ = ∑ i, ∑ sx, ∑ sy, ∑ sz,
            q i a * W sx i 0 * W sy i 1 * W sz i 2 *
              m a (xIdx sx i) (yIdx sy i) (zIdx sz i) :=
          sum_rotate3 (fun sx sy sz i =>
            q i a * W sx i 0 * W sy i 1 * W sz i 2 *
              m a (xIdx sx i) (yIdx sy i) (zIdx sz i))
      _ = ∑ i, q i a * ∑ sx, ∑ sy, ∑ sz,
            m a (xIdx sx i) (yIdx sy i) (zIdx sz i) *
              W sx i 0 * W sy i 1 * W sz i 2 := by
          refine Finset.sum_congr rfl fun i _ => ?_
          rw [Finset.mul_sum]
          refine Finset.sum_congr rfl fun sx _ => ?_
          rw [Finset.mul_sum]
          refine Finset.sum_congr rfl fun sy _ => ?_
          rw [Finset.mul_sum]
          refine Finset.sum_congr rfl fun sz _ => ?_
          ring
  calc ∑ a, ∑ px, ∑ py, ∑ pz,
        points_to_mesh W xIdx yIdx zIdx q a px py pz * m a px py pz
      = ∑ a, ∑ i, q i a * mesh_to_points W xIdx yIdx zIdx m i a :=
        Finset.sum_congr rfl fun a _ => main a
    _ = ∑ i, ∑ a, q i a * mesh_to_points W xIdx yIdx zIdx m i a :=
        Finset.sum_comm

/-- Helper: the total of a scattered mesh over all mesh points, before any
assumption on the weights. -/
lemma sum_points_to_mesh {order N C nx ny nz : ℕ}
    (W : Fin order → Fin N → Fin 3 → ℝ)
    (xIdx : Fin order → Fin N → Fin nx)
    (yIdx : Fin order → Fin N → Fin ny)
    (zIdx : Fin order → Fin N → Fin nz)
    (q : Fin N → Fin C → ℝ) (a : Fin C) :
    ∑ px, ∑ py, ∑ pz, points_to_mesh W xIdx yIdx zIdx q a px py pz =
      ∑ i, ∑ sx, ∑ sy, ∑ sz,
        q i a * W sx i 0 * W sy i 1 * W sz i 2 := by
  unfold points_to_mesh
  calc ∑ px, ∑ py, ∑ pz, ∑ sx, ∑ sy, ∑ sz, ∑ i,
        (if xIdx sx i = px ∧ yIdx sy i = py ∧ zIdx sz i = pz then
          q i a * W sx i 0 * W sy i 1 * W sz i 2
        else 0)
      = ∑ sx, ∑ px, ∑ py, ∑ pz, ∑ sy, ∑ sz, ∑ i,
          (if xIdx sx i = px ∧ yIdx sy i = py ∧ zIdx sz i = pz then
            q i a * W sx i 0 * W sy i 1 * W sz i 2
          else 0) :=
        sum_rotate3 (fun px py pz sx => ∑ sy, ∑ sz, ∑ i,
          (if xIdx sx i = px ∧ yIdx sy i = py ∧ zIdx sz i = pz then
            q i a * W sx i 0 * W sy i 1 * W sz i 2
          else 0))
    _ = ∑ sx, ∑ sy, ∑ px, ∑ py, ∑ pz, ∑ sz, ∑ i,
          (if xIdx sx i = px ∧ yIdx sy i = py ∧ zIdx sz i = pz then
            q i a * W sx i 0 * W sy i 1 * W sz i 2
          else 0) :=
        Finset.sum_congr rfl fun sx _ =>
          sum_rotate3 (fun px py pz sy => ∑ sz, ∑ i,
            (if xIdx sx i = px ∧ yIdx sy i = py ∧ zIdx sz i = pz then
              q i a * W sx i 0 * W sy i 1 * W sz i 2
            else 0))
    _ = ∑ sx, ∑ sy, ∑ sz, ∑ px, ∑ py, ∑ pz, ∑ i,
          (if xIdx sx i = px ∧ yIdx sy i = py ∧ zIdx sz i = pz then
            q i a * W sx i 0 * W sy i 1 * W sz i 2
          else 0) :=
        Finset.sum_congr rfl fun sx _ => Finset.sum_congr rfl fun sy _ =>
          sum_rotate3 (fun px py pz sz => ∑ i,
            (if xIdx sx i = px ∧ yIdx sy i = py ∧ zIdx sz i = pz then
              q i a * W sx i 0 * W sy i 1 * W sz i 2
            else 0))
    _ = ∑ sx, ∑ sy, ∑ sz, ∑ i, ∑ px, ∑ py, ∑ pz,
          (if xIdx sx i = px ∧ yIdx sy i = py ∧ zIdx sz i = pz then
            q i a * W sx i 0 * W sy i 1 * W sz i 2
          else 0) :=
        Finset.sum_congr rfl fun sx _ => Finset.sum_congr rfl fun sy _ =>
          Finset.sum_congr rfl fun sz _ =>
            sum_rotate3 (fun px py pz i =>
              (if xIdx sx i = px ∧ yIdx sy i = py ∧ zIdx sz i = pz then
                q i a * W sx i 0 * W sy i 1 * W sz i 2
              else 0))
    _ = ∑ sx, ∑ sy, ∑ sz, ∑ i,
          q i a * W sx i 0 * W sy i 1 * W sz i 2 :=
        Finset.sum_congr rfl fun sx _ => Finset.sum_congr rfl fun sy _ =>
          Finset.sum_congr rfl fun sz _ => Finset.sum_congr rfl fun i _ =>
            sum_ite_eq3 (xIdx sx i) (yIdx sy i) (zIdx sz i)
              (fun _ _ _ => q i a * W sx i 0 * W sy i 1 * W sz i 2)
    _ = ∑ i, ∑ sx, ∑ sy, ∑ sz,
          q i a * W sx i 0 * W sy i 1 * W sz i 2 :=
        sum_rotate3 (fun sx sy sz i =>
          q i a * W sx i 0 * W sy i 1 * W sz i 2)

/-- Helper: partition of unity for the stored interpolation weights, for
every valid interpolation order. -/
lemma stateWeights_sum_eq_one (order : ℕ)
    (h : order = 1 ∨ order = 2 ∨ order = 3 ∨ order = 4 ∨ order = 5)
    {N : ℕ} (offsets : Fin N → Fin 3 → ℝ) (i : Fin N) (ax : Fin 3) :
    ∑ s : Fin order, stateWeights order offsets s i ax = 1 := by
  rcases h with rfl | rfl | rfl | rfl | rfl <;>
    simp [stateWeights, compute_1d_weights, Fin.sum_univ_succ,
      List.getD_cons_zero, List.getD_cons_succ] <;>
    ring

/-- C10: scattering conserves total weight per channel: with the
interpolation state established by `compute_interpolation_weights` (weights
from `_compute_1d_weights` at the per-particle offsets), the sum of
`points_to_mesh q` over all mesh points equals the sum of `q` over all
particles, for every channel and every interpolation order 1 through 5. -/
theorem points_to_mesh_conserves_total_weight {order N C nx ny nz : ℕ}
    (h : order = 1 ∨ order = 2 ∨ order = 3 ∨ order = 4 ∨ order = 5)
    (offsets : Fin N → Fin 3 → ℝ)
    (xIdx : Fin order → Fin N → Fin nx)
    (yIdx : Fin order → Fin N → Fin ny)
    (zIdx : Fin order → Fin N → Fin nz)
    (q : Fin N → Fin C → ℝ) (a : Fin C) :
    ∑ px, ∑ py, ∑ pz,
        points_to_mesh (stateWeights order offsets) xIdx yIdx zIdx q
          a px py pz =
      ∑ i, q i a := by
  rw [sum_points_to_mesh]
  refine Finset.sum_congr rfl fun i _ => ?_
  have hx := stateWeights_sum_eq_one order h offsets i 0
  have hy := stateWeights_sum_eq_one order h offsets i 1
  have hz := stateWeights_sum_eq_one order h offsets i 2
  calc ∑ sx, ∑ sy, ∑ sz,
        q i a * stateWeights order offsets sx i 0 *
          stateWeights order offsets sy i 1 *
          stateWeights order offsets sz i 2
      = ∑ sx, ∑ sy,
          q i a * stateWeights order offsets sx i 0 *
            stateWeights order offsets sy i 1 *
            ∑ sz, stateWeights order offsets sz i 2 :=
        Finset.sum_congr rfl fun sx _ => Finset.sum_congr rfl fun sy _ =>
          by rw [← Finset.mul_sum]
    _ = ∑ sx, q i a * stateWeights order offsets sx i 0 *
          ∑ sy, stateWeights order offsets sy i 1 := by
        refine Finset.sum_congr rfl fun sx _ => ?_
        rw [hz]
        simp only [mul_one]
        rw [← Finset.mul_sum]
    _ = ∑ sx, q i a * stateWeights order offsets sx i 0 := by
        refine Finset.sum_congr rfl fun sx _ => ?_
        rw [hy, mul_one]
    _ = q i a * ∑ sx, stateWeights order offsets sx i 0 := by
        rw [← Finset.mul_sum]
    _ = q i a := by rw [hx, mul_one]

/-- Witness for C10: order 1, one particle of weight 2, one channel, a 1×1×1
mesh. -/
theorem points_to_mesh_conserves_total_weight_witness :
    ((1 : ℕ) = 1 ∨ (1 : ℕ) = 2 ∨ (1 : ℕ) = 3 ∨ (1 : ℕ) = 4 ∨
      (1 : ℕ) = 5) ∧
    (∑ px : Fin 1, ∑ py : Fin 1, ∑ pz : Fin 1,
        @points_to_mesh 1 1 1 1 1 1 (@stateWeights 1 1 (fun _ _ => 0))
          (fun _ _ => 0) (fun _ _ => 0) (fun _ _ => 0)
          (fun _ _ => (2 : ℝ)) 0 px py pz =
      ∑ i : Fin 1, (fun (_ : Fin 1) (_ : Fin 1) => (2 : ℝ)) i 0) :=
  ⟨Or.inl rfl,
    @points_to_mesh_conserves_total_weight 1 1 1 1 1 1 (Or.inl rfl)
      (fun _ _ => 0) (fun _ _ => 0) (fun _ _ => 0) (fun _ _ => 0)
      (fun _ _ => (2 : ℝ)) 0⟩

/-- C1 (code bug): the potential computed by the Ewald calculator is
identical whether the calculator is constructed with `subtract_self=True` or
`subtract_self=False` — `_compute_single_system` never forwards the stored
flag to `_compute_lr`, whose own default `subtract_self=True` always fires —
so the two results do NOT differ by `charges * sqrt(2/pi)/smearing` as the
claim requires; that claimed difference, `selfContrib`, is strictly positive
(shown here at smearing 1), so the claim fails at every system with a
nonzero charge. -/
theorem ewald_subtract_self_flag_has_no_effect :
    (∀ (P : PotentialImpl) (sr_kernel full_kernel : ℝ → ℝ → ℝ)
      (s1 s2 subtract_interior : Bool)
      (atomic_smearing lr_wavelength : Option ℝ) (N Np : ℕ)
      (positions : Fin N → Fin 3 → ℝ) (charges : Fin N → ℝ)
      (cell : Matrix (Fin 3) (Fin 3) ℝ)
      (neighbor_indices : Fin Np → Fin N × Fin N)
      (neighbor_shifts : Fin Np → Fin 3 → ℤ),
      compute_single_system P sr_kernel full_kernel s1 subtract_interior
          atomic_smearing lr_wavelength positions charges cell
          neighbor_indices neighbor_shifts =
        compute_single_system P sr_kernel full_kernel s2 subtract_interior
          atomic_smearing lr_wavelength positions charges cell
          neighbor_indices neighbor_shifts) ∧
    0 < selfContrib 1 := by
  refine ⟨fun _ _ _ _ _ _ _ _ _ _ _ _ _ _ _ => rfl, ?_⟩
  unfold selfContrib
  rw [div_one]
  exact Real.sqrt_pos.mpr (div_pos two_pos Real.pi_pos)

/-- C2: for every set of k-vectors with kernel values `G`, the per-particle,
per-channel long-range energy computed via the precomputed cosine/sine
projections equals the naive pairwise double sum
`(1/|det cell|) ∑_k G(k) ∑_j q_j cos(k · (r_i - r_j))`, by the identity
`cos(a-b) = cos a cos b + sin a sin b`. -/
theorem lr_energy_trig_eq_naive {K N C : ℕ} (G : Fin K → ℝ)
    (kvectors : Fin K → Fin 3 → ℝ) (positions : Fin N → Fin 3 → ℝ)
    (charges : Fin C → Fin N → ℝ) (cell : Matrix (Fin 3) (Fin 3) ℝ)
    (i : Fin N) (ch : Fin C) :
    lr_energy_trig G kvectors positions charges cell i ch =
      lr_energy_naive G kvectors positions charges cell i ch := by
  unfold lr_energy_trig lr_energy_naive
  congr 1
  have hterm : ∀ k : Fin K,
      (∑ j, charges ch j *
        Real.cos (∑ c, kvectors k c * (positions i c - positions j c))) =
      Real.cos (∑ c, kvectors k c * positions i c) *
        (∑ j, charges ch j *
          Real.cos (∑ c, kvectors k c * positions j c)) +
      Real.sin (∑ c, kvectors k c * positions i c) *
        (∑ j, charges ch j *
          Real.sin (∑ c, kvectors k c * positions j c)) := by
    intro k
    have hdiff : ∀ j : Fin N,
        (∑ c, kvectors k c * (positions i c - positions j c)) =
        (∑ c, kvectors k c * positions i c) -
          (∑ c, kvectors k c * positions j c) := by
      intro j
      rw [← Finset.sum_sub_distrib]
      exact Finset.sum_congr rfl fun c _ => mul_sub _ _ _
    calc ∑ j, charges ch j *
          Real.cos (∑ c, kvectors k c * (positions i c - positions j c))
        = ∑ j, charges ch j *
            (Real.cos (∑ c, kvectors k c * positions i c) *
              Real.cos (∑ c, kvectors k c * positions j c) +
            Real.sin (∑ c, kvectors k c * positions i c) *
              Real.sin (∑ c, kvectors k c * positions j c)) := by
          refine Finset.sum_congr rfl fun j _ => ?_
          rw [hdiff j, Real.cos_sub]
      _ = (∑ j, Real.cos (∑ c, kvectors k c * positions i c) *
              (charges ch j *
                Real.cos (∑ c, kvectors k c * positions j c))) +
          (∑ j, Real.sin (∑ c, kvectors k c * positions i c) *
              (charges ch j *
                Real.sin (∑ c, kvectors k c * positions j c))) := by
          rw [← Finset.sum_add_distrib]
          exact Finset.sum_congr rfl fun j _ => by ring
      _ = Real.cos (∑ c, kvectors k c * positions i c) *
            (∑ j, charges ch j *
              Real.cos (∑ c, kvectors k c * positions j c)) +
          Real.sin (∑ c, kvectors k c * positions i c) *
            (∑ j, charges ch j *
              Real.sin (∑ c, kvectors k c * positions j c)) := by
          rw [← Finset.mul_sum, ← Finset.mul_sum]
  calc (∑ k, G k * Real.cos (∑ c, kvectors k c * positions i c) *
          (∑ j, charges ch j *
            Real.cos (∑ c, kvectors k c * positions j c)) +
        ∑ k, G k * Real.sin (∑ c, kvectors k c * positions i c) *
          (∑ j, charges ch j *
            Real.sin (∑ c, kvectors k c * positions j c)))
      = ∑ k, (G k * Real.cos (∑ c, kvectors k c * positions i c) *
            (∑ j, charges ch j *
              Real.cos (∑ c, kvectors k c * positions j c)) +
          G k * Real.sin (∑ c, kvectors k c * positions i c) *
            (∑ j, charges ch j *
              Real.sin (∑ c, kvectors k c * positions j c))) :=
        (Finset.sum_add_distrib).symm
    _ = ∑ k, G k * ∑ j, charges ch j *
          Real.cos (∑ c, kvectors k c * (positions i c - positions j c)) :=
        Finset.sum_congr rfl fun k _ => by rw [hterm k]; ring
